import Mathlib

/-!
Verification of the TIRF three-pole electromagnet field simulation
(`generate_field.ipynb`).  The notebook models the magnet as three point
dipoles, maps applied coil voltages to dipole moments (a linear mode and a
saturating tanh mode), computes the total field at a fixed observation
point, and assembles four voltage/field datasets.  Real-number arithmetic
stands in for the notebook's IEEE doubles; the unseeded random draws of the
notebook enter the embedding as explicit list parameters.
-/

namespace TIRFMagnet

noncomputable section

open Real Filter

/-- An ordered triple of reals, used for positions, moments, axes and
field values (the notebook's length-3 `np.array`). -/
@[ext]
structure Vec3 where
  x : ℝ
  y : ℝ
  z : ℝ

/-- Elementwise vector addition. -/
def vadd (a b : Vec3) : Vec3 := ⟨a.x + b.x, a.y + b.y, a.z + b.z⟩

/-- Elementwise vector subtraction. -/
def vsub (a b : Vec3) : Vec3 := ⟨a.x - b.x, a.y - b.y, a.z - b.z⟩

/-- Scalar times vector, elementwise. -/
def smul (c : ℝ) (v : Vec3) : Vec3 := ⟨c * v.x, c * v.y, c * v.z⟩

/-- The zero vector (`np.array([0, 0, 0])`). -/
def vzero : Vec3 := ⟨0, 0, 0⟩

/-- Dot product of two 3-vectors (`np.dot`). -/
def dot (a b : Vec3) : ℝ := a.x * b.x + a.y * b.y + a.z * b.z

/-- Magnitude of a 3-vector: `mag(x) = sqrt(dot(x, x))`. -/
def mag (v : Vec3) : ℝ := Real.sqrt (dot v v)

/-- Magnetic constant of the notebook: `mu0 = 10**-7`. -/
def mu0 : ℝ := 10 ^ (-7 : ℤ)

/-- Scaling factor for the magnetic dipole magnitude: `m = 1e8`. -/
def m : ℝ := 1e8

/-- Position of dipole 1: `R1 = np.array([1, 0, 1])`. -/
def R1 : Vec3 := ⟨1, 0, 1⟩

/-- Position of dipole 2: `R2 = np.array([-cos(pi/3), sin(pi/3), 1])`. -/
def R2 : Vec3 := ⟨-Real.cos (Real.pi / 3), Real.sin (Real.pi / 3), 1⟩

/-- Position of dipole 3: `R3 = np.array([-cos(pi/3), -sin(pi/3), 1])`. -/
def R3 : Vec3 := ⟨-Real.cos (Real.pi / 3), -Real.sin (Real.pi / 3), 1⟩

/-- Shared dipole orientation: `A = np.array([0, 0, 1])`. -/
def A : Vec3 := ⟨0, 0, 1⟩

/-- The magnetometer location (observation point): `r0 = np.array([0., 0., 0.])`. -/
def r0 : Vec3 := ⟨0, 0, 0⟩

/-- Voltage range: `v_range = 10`. -/
def v_range : ℝ := 10

/-- Non-linearity factor: `nf = 15`. -/
def nf : ℝ := 15

/-- Magnetic field of a single dipole, translated from `dipole_field(r, r0, m, a)`:
moment vector `M = m*a`, displacement `R = r - r0`; if `dot(R,R) == 0` the zero
vector is returned (singularity guard), otherwise
`mu0*(3*R*dot(M,R)/mag(R)**5 - M/mag(R)**3)`. -/
def dipole_field (r r0 : Vec3) (m : ℝ) (a : Vec3) : Vec3 :=
  let M : Vec3 := smul m a
  let R : Vec3 := vsub r r0
  if dot R R = 0 then vzero
  else smul mu0 (vsub (smul (3 * dot M R / mag R ^ 5) R) (smul (1 / mag R ^ 3) M))

/-- Total field at point `r`, translated from `total_field(r, m_array, dipole_axis)`:
the sum of the three dipole contributions, pole `i` driven by component `i`
of `m_array`, all poles sharing `dipole_axis`. -/
def total_field (r : Vec3) (m_array : Vec3) (dipole_axis : Vec3) : Vec3 :=
  vadd (vadd (dipole_field r R1 m_array.x dipole_axis)
        (dipole_field r R2 m_array.y dipole_axis))
    (dipole_field r R3 m_array.z dipole_axis)

/-- Linear voltage-to-moment map for a single coil, from the loop body
`total_field(r0, V * m, A)`: each voltage component is multiplied by `m`. -/
def lin_v (v : ℝ) : ℝ := v * m

/-- Non-linear (saturating) voltage-to-moment map for a single coil, from the
loop body `total_field(r0, v_range*np.tanh(V/nf) * m, A)`. -/
def nl_v (v : ℝ) : ℝ := v_range * Real.tanh (v / nf) * m

/-- The linear moment map applied elementwise to a voltage vector (`V * m`). -/
def lin_map (V : Vec3) : Vec3 := ⟨lin_v V.x, lin_v V.y, lin_v V.z⟩

/-- The non-linear moment map applied elementwise to a voltage vector
(`v_range*np.tanh(V/nf) * m`; numpy applies `tanh` componentwise). -/
def nl_map (V : Vec3) : Vec3 := ⟨nl_v V.x, nl_v V.y, nl_v V.z⟩

/-- `np.linspace a b n`: `n` evenly spaced samples from `a` to `b` inclusive
(a single sample is `a`; for `n ≥ 2` sample `i` is `a + (b-a)*i/(n-1)`). -/
def linspace (a b : ℝ) (n : ℕ) : List ℝ :=
  (List.range n).map fun i : ℕ =>
    if n ≤ 1 then a else a + (b - a) * (i : ℝ) / ((n : ℝ) - 1)

/-- `np.zeros n` as a list. -/
def zeros (n : ℕ) : List ℝ := List.replicate n (0 : ℝ)

/-- Pole-1 voltage column, from
`V1 = np.concatenate((np.linspace(-v_range, v_range, N1), np.zeros(N1), np.zeros(N1)))`,
generalized over the sample count `N` (the notebook fixes `N1 = 128`). -/
def V1 (N : ℕ) : List ℝ := linspace (-v_range) v_range N ++ zeros N ++ zeros N

/-- Pole-2 voltage column (`np.zeros`, `linspace`, `np.zeros`). -/
def V2 (N : ℕ) : List ℝ := zeros N ++ linspace (-v_range) v_range N ++ zeros N

/-- Pole-3 voltage column (`np.zeros`, `np.zeros`, `linspace`). -/
def V3 (N : ℕ) : List ℝ := zeros N ++ zeros N ++ linspace (-v_range) v_range N

/-- Per-pole sweep voltage matrix, from `V_ind = np.stack((V1, V2, V3), axis=1)`:
row `i` is the voltage triple `(V1[i], V2[i], V3[i])`. -/
def V_ind (N : ℕ) : List Vec3 := List.zipWith3 Vec3.mk (V1 N) (V2 N) (V3 N)

/-- One row of an output dataset: a computed field paired with the voltage
triple that produced it. -/
structure FieldSample where
  field : Vec3
  voltage : Vec3

/-- Fields of the linear individual sweep, from the loop
`B_ind.append(total_field(r0, V * m, A))`. -/
def B_ind (N : ℕ) : List Vec3 := (V_ind N).map fun V => total_field r0 (lin_map V) A

/-- The linear individual dataset: fields zipped with their voltages, from
`np.concatenate((B_ind, V_ind), axis=1)` row by row.  Faithful for `N ≥ 1`;
with an empty field list (`N = 0`) numpy instead raises a ValueError at
assembly, an error path modelled separately by `assemble`. -/
def individual_calibration_set (N : ℕ) : List FieldSample :=
  List.zipWith FieldSample.mk (B_ind N) (V_ind N)

/-- Fields of the non-linear individual sweep, from the loop
`B_nl_ind.append(total_field(r0, v_range*np.tanh(V/nf) * m, A))`. -/
def B_nl_ind (N : ℕ) : List Vec3 := (V_ind N).map fun V => total_field r0 (nl_map V) A

/-- The non-linear individual dataset. -/
def nl_individual_calibration_set (N : ℕ) : List FieldSample :=
  List.zipWith FieldSample.mk (B_nl_ind N) (V_ind N)

/-- Fields of the random block, from the loop over `V_rand`
(`total_field(r0, v_range*np.tanh(V/nf) * m, A)`).  The notebook draws
`V_rand = np.random.uniform(-v_range, v_range, (N2, 3))` from the unseeded
global generator; the drawn rows enter here as the explicit list `V_rand`. -/
def B_rand (V_rand : List Vec3) : List Vec3 :=
  V_rand.map fun V => total_field r0 (nl_map V) A

/-- `V_full = np.concatenate((V_ind, V_rand))`. -/
def V_full (N : ℕ) (V_rand : List Vec3) : List Vec3 := V_ind N ++ V_rand

/-- `B_full = np.concatenate((B_nl_ind, B_rand))`. -/
def B_full (N : ℕ) (V_rand : List Vec3) : List Vec3 := B_nl_ind N ++ B_rand V_rand

/-- The full non-linear dataset: individual sweep plus random block
(faithful when the concatenated blocks are nonempty — with `N = 0` the
notebook's `np.concatenate((B_nl_ind, B_rand))` mixes an empty 1-D array
into the stack and raises; see `assemble` for that error semantics). -/
def full_calibration_set (N : ℕ) (V_rand : List Vec3) : List FieldSample :=
  List.zipWith FieldSample.mk (B_full N V_rand) (V_full N V_rand)

/-- Fields of the validation draws, from the loop over
`V_val = np.random.uniform(-v_range, v_range, (N_val, 3))` (again unseeded;
the draws are the explicit list `V_val`). -/
def B_val (V_val : List Vec3) : List Vec3 :=
  V_val.map fun V => total_field r0 (nl_map V) A

/-- The validation dataset (faithful for nonempty draw lists; an empty
`B_val` would make the notebook's assembly raise, see `assemble`). -/
def val_set (V_val : List Vec3) : List FieldSample :=
  List.zipWith FieldSample.mk (B_val V_val) V_val

/-- Pole-1 voltage column as a function of the configured voltage range:
the notebook fixes the configuration constant `v_range = 10` and
`V1 N = V1_cfg v_range N`; other configurations substitute their own range. -/
def V1_cfg (vr : ℝ) (N : ℕ) : List ℝ := linspace (-vr) vr N ++ zeros N ++ zeros N

/-- Pole-2 voltage column under a configured voltage range. -/
def V2_cfg (vr : ℝ) (N : ℕ) : List ℝ := zeros N ++ linspace (-vr) vr N ++ zeros N

/-- Pole-3 voltage column under a configured voltage range. -/
def V3_cfg (vr : ℝ) (N : ℕ) : List ℝ := zeros N ++ zeros N ++ linspace (-vr) vr N

/-- Per-pole sweep matrix under a configured voltage range
(`V_ind N = V_ind_cfg v_range N`). -/
def V_ind_cfg (vr : ℝ) (N : ℕ) : List Vec3 :=
  List.zipWith3 Vec3.mk (V1_cfg vr N) (V2_cfg vr N) (V3_cfg vr N)

/-- Linear-sweep fields under a configured voltage range. -/
def B_ind_cfg (vr : ℝ) (N : ℕ) : List Vec3 :=
  (V_ind_cfg vr N).map fun V => total_field r0 (lin_map V) A

/-- Dataset assembly `np.concatenate((B, V), axis=1)` with its numpy error
semantics: the computed fields `B` form a plain Python list, which coerces
to a 2-D array only when it is nonempty — an empty list becomes a 1-D
shape-`(0,)` array and `np.concatenate` raises a ValueError against the 2-D
voltage matrix; when `B` is nonempty the rows are paired positionally. -/
def assemble (B V : List Vec3) : Option (List FieldSample) :=
  if B.isEmpty then none else some (List.zipWith FieldSample.mk B V)

/-! ### Shared helper lemmas -/

lemma mu0_eq : mu0 = 1 / 10 ^ 7 := by norm_num [mu0]

lemma dot_smul_left (c : ℝ) (a b : Vec3) : dot (smul c a) b = c * dot a b := by
  simp only [dot, smul]; ring

lemma dipole_field_smul (r p : Vec3) (c mm : ℝ) (a : Vec3) :
    dipole_field r p (c * mm) a = smul c (dipole_field r p mm a) := by
  by_cases h : dot (vsub r p) (vsub r p) = 0
  · simp only [dipole_field, h, if_pos rfl, if_true, smul, vzero, mul_zero]
  · simp only [dipole_field, if_neg h]
    ext <;> simp only [smul, vsub, dot] <;> ring

lemma dipole_field_add (r p : Vec3) (m1 m2 : ℝ) (a : Vec3) :
    dipole_field r p (m1 + m2) a =
      vadd (dipole_field r p m1 a) (dipole_field r p m2 a) := by
  by_cases h : dot (vsub r p) (vsub r p) = 0
  · simp only [dipole_field, h, if_pos rfl, if_true, vadd, vzero, add_zero]
  · simp only [dipole_field, if_neg h]
    ext <;> simp only [vadd, smul, vsub, dot] <;> ring

lemma dipole_field_of_ne (r p : Vec3) (mm : ℝ) (a : Vec3)
    (h : dot (vsub r p) (vsub r p) ≠ 0) :
    dipole_field r p mm a =
      smul mu0 (vsub (smul (3 * dot (smul mm a) (vsub r p) / mag (vsub r p) ^ 5) (vsub r p))
        (smul (1 / mag (vsub r p) ^ 3) (smul mm a))) := by
  rw [dipole_field, if_neg h]

lemma dipole_field_zero_moment (r p a : Vec3) : dipole_field r p 0 a = vzero := by
  have h := dipole_field_smul r p 0 0 a
  rw [mul_zero] at h
  rw [h]
  simp [smul, vzero]

lemma zipWith_mk_map (f : Vec3 → Vec3) (l : List Vec3) :
    List.zipWith FieldSample.mk (l.map f) l =
      l.map fun v => FieldSample.mk (f v) v := by
  induction l with
  | nil => rfl
  | cons a t ih => simp [List.zipWith, ih]

lemma individual_calibration_set_eq (N : ℕ) :
    individual_calibration_set N =
      (V_ind N).map fun v => FieldSample.mk (total_field r0 (lin_map v) A) v :=
  zipWith_mk_map _ _

lemma nl_individual_calibration_set_eq (N : ℕ) :
    nl_individual_calibration_set N =
      (V_ind N).map fun v => FieldSample.mk (total_field r0 (nl_map v) A) v :=
  zipWith_mk_map _ _

lemma full_calibration_set_eq (N : ℕ) (Vr : List Vec3) :
    full_calibration_set N Vr =
      (V_ind N ++ Vr).map fun v => FieldSample.mk (total_field r0 (nl_map v) A) v := by
  rw [full_calibration_set, B_full, B_nl_ind, B_rand, V_full, ← List.map_append]
  exact zipWith_mk_map _ _

lemma val_set_eq (Vv : List Vec3) :
    val_set Vv =
      Vv.map fun v => FieldSample.mk (total_field r0 (nl_map v) A) v :=
  zipWith_mk_map _ _

lemma mem_map_row {f : Vec3 → Vec3} {l : List Vec3} {s : FieldSample}
    (h : s ∈ l.map fun v => FieldSample.mk (f v) v) : s.field = f s.voltage := by
  obtain ⟨v, _, rfl⟩ := List.mem_map.1 h
  rfl

/-! ### Hyperbolic tangent bounds and limits (for the saturating mode) -/

lemma abs_tanh_lt_one (x : ℝ) : |Real.tanh x| < 1 := by
  have h1 : Real.cosh x ^ 2 = Real.sinh x ^ 2 + 1 := Real.cosh_sq x
  have h2 : 0 < Real.cosh x := Real.cosh_pos x
  rw [Real.tanh_eq_sinh_div_cosh, abs_div, abs_of_pos h2, div_lt_one h2]
  nlinarith [abs_nonneg (Real.sinh x), sq_abs (Real.sinh x)]

lemma tanh_eq_one_sub (x : ℝ) :
    Real.tanh x = 1 - 2 / (Real.exp (2 * x) + 1) := by
  have hx : Real.exp x ≠ 0 := (Real.exp_pos x).ne'
  have h2x : Real.exp (2 * x) = Real.exp x * Real.exp x := by
    rw [two_mul, Real.exp_add]
  have hc : Real.exp x + (Real.exp x)⁻¹ ≠ 0 := by positivity
  have hp : Real.exp x * Real.exp x + 1 ≠ 0 := by positivity
  rw [Real.tanh_eq_sinh_div_cosh, Real.sinh_eq, Real.cosh_eq, Real.exp_neg, h2x]
  field_simp
  ring

lemma tanh_eq_ratio (x : ℝ) :
    Real.tanh x = (Real.exp (2 * x) - 1) / (Real.exp (2 * x) + 1) := by
  have hp : Real.exp (2 * x) + 1 ≠ 0 := by positivity
  rw [tanh_eq_one_sub]
  field_simp
  ring

lemma tendsto_tanh_atTop : Tendsto Real.tanh atTop (nhds 1) := by
  have h1 : Tendsto (fun x : ℝ => 2 * x) atTop atTop :=
    Tendsto.const_mul_atTop two_pos tendsto_id
  have h2 : Tendsto (fun x : ℝ => Real.exp (2 * x)) atTop atTop :=
    Real.tendsto_exp_atTop.comp h1
  have h3 : Tendsto (fun x : ℝ => Real.exp (2 * x) + 1) atTop atTop :=
    tendsto_atTop_add_const_right _ 1 h2
  have h4 : Tendsto (fun x : ℝ => 2 / (Real.exp (2 * x) + 1)) atTop (nhds 0) :=
    Tendsto.div_atTop tendsto_const_nhds h3
  have h5 : Tendsto (fun x : ℝ => 1 - 2 / (Real.exp (2 * x) + 1)) atTop
      (nhds (1 - 0)) := tendsto_const_nhds.sub h4
  rw [sub_zero] at h5
  exact h5.congr fun x => (tanh_eq_one_sub x).symm

lemma tendsto_tanh_atBot : Tendsto Real.tanh atBot (nhds (-1)) := by
  have h1 : Tendsto (fun x : ℝ => 2 * x) atBot atBot :=
    Tendsto.const_mul_atBot two_pos tendsto_id
  have h2 : Tendsto (fun x : ℝ => Real.exp (2 * x)) atBot (nhds 0) :=
    Real.tendsto_exp_atBot.comp h1
  have h3 : Tendsto (fun x : ℝ => (Real.exp (2 * x) - 1) / (Real.exp (2 * x) + 1))
      atBot (nhds ((0 - 1) / (0 + 1))) :=
    Tendsto.div (h2.sub tendsto_const_nhds) (h2.add tendsto_const_nhds) (by norm_num)
  norm_num at h3
  exact h3.congr fun x => (tanh_eq_ratio x).symm

/-! ### Index access into the sweep matrix -/

lemma zipWith3_length {α β γ δ : Type*} (f : α → β → γ → δ) :
    ∀ (as : List α) (bs : List β) (cs : List γ),
      (List.zipWith3 f as bs cs).length = min (min as.length bs.length) cs.length := by
  intro as
  induction as with
  | nil => intro bs cs; simp [List.zipWith3]
  | cons a as ih =>
    intro bs cs
    cases bs with
    | nil => simp [List.zipWith3]
    | cons b bs =>
      cases cs with
      | nil => simp [List.zipWith3]
      | cons c cs => simp only [List.zipWith3, List.length_cons, ih]; omega

lemma zipWith3_getD {α β γ δ : Type*} (f : α → β → γ → δ)
    (da : α) (db : β) (dc : γ) (dd : δ) :
    ∀ (as : List α) (bs : List β) (cs : List γ) (i : ℕ),
      i < as.length → i < bs.length → i < cs.length →
      (List.zipWith3 f as bs cs).getD i dd =
        f (as.getD i da) (bs.getD i db) (cs.getD i dc) := by
  intro as
  induction as with
  | nil => intro bs cs i ha _ _; simp at ha
  | cons a as ih =>
    intro bs cs i ha hb hc
    cases bs with
    | nil => simp at hb
    | cons b bs =>
      cases cs with
      | nil => simp at hc
      | cons c cs =>
        cases i with
        | zero => rfl
        | succ j =>
          simp only [List.length_cons, Nat.add_lt_add_iff_right] at ha hb hc
          simp only [List.zipWith3, List.getD_cons_succ]
          exact ih bs cs j ha hb hc

lemma linspace_length (a b : ℝ) (n : ℕ) : (linspace a b n).length = n := by
  rw [linspace, List.length_map, List.length_range]

lemma zeros_length (n : ℕ) : (zeros n).length = n := by
  simp [zeros]

lemma zeros_getD {n i : ℕ} (h : i < n) : (zeros n).getD i 0 = 0 := by
  rw [List.getD_eq_getElem _ _ (by simpa [zeros] using h)]
  simp [zeros]

lemma zeros_append (n n' : ℕ) : zeros n ++ zeros n' = zeros (n + n') := by
  rw [zeros, zeros, zeros, List.replicate_add]

lemma linspace_getD (a b : ℝ) {n i : ℕ} (hn : 2 ≤ n) (hi : i < n) :
    (linspace a b n).getD i 0 = a + (b - a) * i / ((n : ℝ) - 1) := by
  rw [List.getD_eq_getElem _ _ (by rw [linspace_length] <;> omega)]
  simp only [linspace, List.getElem_map, List.getElem_range]
  rw [if_neg (by omega : ¬ n ≤ 1)]

lemma V1_length (N : ℕ) : (V1 N).length = 3 * N := by
  simp [V1, linspace_length, zeros_length]; omega

lemma V2_length (N : ℕ) : (V2 N).length = 3 * N := by
  simp [V2, linspace_length, zeros_length]; omega

lemma V3_length (N : ℕ) : (V3 N).length = 3 * N := by
  simp [V3, linspace_length, zeros_length]; omega

lemma V_ind_length (N : ℕ) : (V_ind N).length = 3 * N := by
  rw [V_ind, zipWith3_length, V1_length, V2_length, V3_length]
  omega

lemma V1_getD_block1 {N i : ℕ} (hN : 2 ≤ N) (hi : i < N) :
    (V1 N).getD i 0 = -v_range + 2 * v_range * i / ((N : ℝ) - 1) := by
  rw [V1, List.getD_append _ _ _ _ (by simp [List.length_append, linspace_length, zeros_length] <;> omega),
    List.getD_append _ _ _ _ (by simp [linspace_length] <;> omega),
    linspace_getD _ _ hN hi]
  ring

lemma V2_getD_block1 {N i : ℕ} (hi : i < N) : (V2 N).getD i 0 = 0 := by
  rw [V2, List.getD_append _ _ _ _ (by simp [List.length_append, linspace_length, zeros_length] <;> omega),
    List.getD_append _ _ _ _ (by simp [List.length_append, zeros_length] <;> omega)]
  exact zeros_getD hi

lemma V3_getD_block1 {N i : ℕ} (hi : i < N) : (V3 N).getD i 0 = 0 := by
  rw [V3, List.getD_append _ _ _ _ (by simp [List.length_append, linspace_length, zeros_length] <;> omega),
    List.getD_append _ _ _ _ (by simp [List.length_append, zeros_length] <;> omega)]
  exact zeros_getD hi

lemma V1_getD_block2 {N i : ℕ} (hi : i < N) : (V1 N).getD (N + i) 0 = 0 := by
  rw [V1, List.getD_append _ _ _ _ (by simp [List.length_append, linspace_length, zeros_length] <;> omega),
    List.getD_append_right _ _ _ _ (by simp [linspace_length] <;> omega)]
  rw [linspace_length, Nat.add_sub_cancel_left]
  exact zeros_getD hi

lemma V2_getD_block2 {N i : ℕ} (hN : 2 ≤ N) (hi : i < N) :
    (V2 N).getD (N + i) 0 = -v_range + 2 * v_range * i / ((N : ℝ) - 1) := by
  rw [V2, List.getD_append _ _ _ _ (by simp [List.length_append, linspace_length, zeros_length] <;> omega),
    List.getD_append_right _ _ _ _ (by simp [List.length_append, zeros_length] <;> omega)]
  rw [zeros_length, Nat.add_sub_cancel_left, linspace_getD _ _ hN hi]
  ring

lemma V3_getD_block2 {N i : ℕ} (hi : i < N) : (V3 N).getD (N + i) 0 = 0 := by
  rw [V3, List.getD_append _ _ _ _ (by simp [List.length_append, zeros_length] <;> omega), zeros_append]
  exact zeros_getD (by omega)

lemma V1_getD_block3 {N i : ℕ} (hi : i < N) : (V1 N).getD (2 * N + i) 0 = 0 := by
  rw [V1, List.getD_append_right _ _ _ _ (by simp [List.length_append, linspace_length, zeros_length] <;> omega)]
  rw [List.length_append, linspace_length, zeros_length]
  exact zeros_getD (by omega)

lemma V2_getD_block3 {N i : ℕ} (hi : i < N) : (V2 N).getD (2 * N + i) 0 = 0 := by
  rw [V2, List.getD_append_right _ _ _ _ (by simp [List.length_append, linspace_length, zeros_length] <;> omega)]
  rw [List.length_append, linspace_length, zeros_length]
  exact zeros_getD (by omega)

lemma V3_getD_block3 {N i : ℕ} (hN : 2 ≤ N) (hi : i < N) :
    (V3 N).getD (2 * N + i) 0 = -v_range + 2 * v_range * i / ((N : ℝ) - 1) := by
  rw [V3, zeros_append, List.getD_append_right _ _ _ _ (by simp [List.length_append, zeros_length] <;> omega)]
  rw [zeros_length, show 2 * N + i - (N + N) = i by omega, linspace_getD _ _ hN hi]
  ring

lemma V_ind_getD {N i : ℕ} (h : i < 3 * N) :
    (V_ind N).getD i vzero =
      ⟨(V1 N).getD i 0, (V2 N).getD i 0, (V3 N).getD i 0⟩ := by
  rw [V_ind]
  exact zipWith3_getD Vec3.mk 0 0 0 vzero _ _ _ i
    (by rw [V1_length] <;> omega) (by rw [V2_length] <;> omega) (by rw [V3_length] <;> omega)

lemma V_ind_block1_val {N i : ℕ} (hN : 2 ≤ N) (hi : i < N) :
    (V_ind N).getD (0 + i) vzero =
      ⟨-v_range + 2 * v_range * i / ((N : ℝ) - 1), 0, 0⟩ := by
  rw [zero_add, V_ind_getD (by omega), V1_getD_block1 hN hi,
    V2_getD_block1 hi, V3_getD_block1 hi]

lemma V_ind_block2_val {N i : ℕ} (hN : 2 ≤ N) (hi : i < N) :
    (V_ind N).getD (N + i) vzero =
      ⟨0, -v_range + 2 * v_range * i / ((N : ℝ) - 1), 0⟩ := by
  rw [V_ind_getD (by omega), V1_getD_block2 hi, V2_getD_block2 hN hi,
    V3_getD_block2 hi]

lemma V_ind_block3_val {N i : ℕ} (hN : 2 ≤ N) (hi : i < N) :
    (V_ind N).getD (2 * N + i) vzero =
      ⟨0, 0, -v_range + 2 * v_range * i / ((N : ℝ) - 1)⟩ := by
  rw [V_ind_getD (by omega), V1_getD_block3 hi, V2_getD_block3 hi,
    V3_getD_block3 hN hi]

/-! ### The per-pole sweep claim (C6), formalized from the claim text -/

/-- One block of the claimed sweep shape: starting at row `off`, the `N` rows
are the evenly spaced values from `-V_max` to `V_max` on the active
coordinate (`emb` builds the row from the active value, `proj` reads it
back), the endpoints `-V_max` and `V_max` are attained, and the active
values ascend. -/
def sweep_block (N off : ℕ) (emb : ℝ → Vec3) (proj : Vec3 → ℝ) : Prop :=
  (∀ i, i < N →
    (V_ind N).getD (off + i) vzero =
      emb (-v_range + 2 * v_range * i / ((N : ℝ) - 1))) ∧
  proj ((V_ind N).getD off vzero) = -v_range ∧
  proj ((V_ind N).getD (off + (N - 1)) vzero) = v_range ∧
  ∀ i j, i < j → j < N →
    proj ((V_ind N).getD (off + i) vzero) < proj ((V_ind N).getD (off + j) vzero)

/-- The C6 claim at sample count `N`, as stated: `individual(N)` has exactly
`3N` rows; rows `[0, N)` sweep coordinate 0 (the other coordinates exactly
zero) over the evenly spaced values from `-V_max` to `V_max` inclusive in
ascending order, and likewise rows `[N, 2N)` for coordinate 1 and
`[2N, 3N)` for coordinate 2. -/
def individual_sweep_claim (N : ℕ) : Prop :=
  (V_ind N).length = 3 * N ∧
  sweep_block N 0 (fun t => ⟨t, 0, 0⟩) Vec3.x ∧
  sweep_block N N (fun t => ⟨0, t, 0⟩) Vec3.y ∧
  sweep_block N (2 * N) (fun t => ⟨0, 0, t⟩) Vec3.z

lemma sweep_block_of_val {N off : ℕ} {emb : ℝ → Vec3} {proj : Vec3 → ℝ}
    (hproj : ∀ t, proj (emb t) = t) (hN : 2 ≤ N)
    (hval : ∀ i, i < N → (V_ind N).getD (off + i) vzero =
      emb (-v_range + 2 * v_range * i / ((N : ℝ) - 1))) :
    sweep_block N off emb proj := by
  have hNR : (2 : ℝ) ≤ (N : ℝ) := by exact_mod_cast hN
  have hpos : (0 : ℝ) < (N : ℝ) - 1 := by linarith
  refine ⟨hval, ?_, ?_, ?_⟩
  · have h := hval 0 (by omega)
    rw [Nat.add_zero] at h
    rw [h, hproj]
    norm_num
  · have h := hval (N - 1) (by omega)
    rw [h, hproj, Nat.cast_sub (by omega), Nat.cast_one, mul_div_assoc,
      div_self hpos.ne', mul_one]
    ring
  · intro i j hij hj
    rw [hval i (lt_trans hij hj), hval j hj, hproj, hproj]
    have hc : (i : ℝ) < (j : ℝ) := by exact_mod_cast hij
    have hv : (0 : ℝ) < 2 * v_range := by norm_num [v_range]
    apply add_lt_add_left
    rw [div_lt_div_iff₀ hpos hpos]
    nlinarith [mul_pos (mul_pos hv hpos) (sub_pos.mpr hc)]

/-! ### Claim theorems -/

/-- C2: away from the singular point (`dot(R,R) ≠ 0` with `R = r - r0`),
`dipole_field` returns `mu0 * (3*R*dot(M,R)/|R|^5 - M/|R|^3)` with
`M = m*a` and `mu0 = 1e-7`. -/
theorem dipole_field_formula (r p : Vec3) (mm : ℝ) (a : Vec3)
    (h : dot (vsub r p) (vsub r p) ≠ 0) :
    dipole_field r p mm a =
      smul (1 / 10 ^ 7)
        (vsub (smul (3 * dot (smul mm a) (vsub r p) / mag (vsub r p) ^ 5) (vsub r p))
          (smul (1 / mag (vsub r p) ^ 3) (smul mm a))) := by
  rw [dipole_field_of_ne _ _ _ _ h, mu0_eq]

theorem dipole_field_formula_witness :
    dot (vsub ⟨1, 0, 0⟩ r0) (vsub ⟨1, 0, 0⟩ r0) ≠ 0 ∧
    dipole_field ⟨1, 0, 0⟩ r0 1 A =
      smul (1 / 10 ^ 7)
        (vsub (smul (3 * dot (smul 1 A) (vsub ⟨1, 0, 0⟩ r0) /
            mag (vsub ⟨1, 0, 0⟩ r0) ^ 5) (vsub ⟨1, 0, 0⟩ r0))
          (smul (1 / mag (vsub ⟨1, 0, 0⟩ r0) ^ 3) (smul 1 A))) := by
  have h : dot (vsub ⟨1, 0, 0⟩ r0) (vsub ⟨1, 0, 0⟩ r0) ≠ 0 := by
    norm_num [dot, vsub, r0]
  exact ⟨h, dipole_field_formula ⟨1, 0, 0⟩ r0 1 A h⟩

/-- C3: evaluating `dipole_field` at a field point exactly equal to the pole
position returns exactly the zero vector, for every moment magnitude and
axis; this is a defined result, not an error. -/
theorem dipole_field_at_pole (r : Vec3) (mm : ℝ) (a : Vec3) :
    dipole_field r r mm a = vzero := by
  have h : dot (vsub r r) (vsub r r) = 0 := by simp [dot, vsub]
  rw [dipole_field, if_pos h]

/-- C5: in linear mode the moment of a voltage `v` is `v * scale` with
`scale = m = 1e8`, applied independently per coil; hence the map is exactly
proportional (`moment(2v) = 2*moment(v)`) and sends `0` to `0`. -/
theorem lin_moment_props (v : ℝ) :
    lin_v v = v * m ∧ m = 10 ^ 8 ∧
    lin_v (2 * v) = 2 * lin_v v ∧ lin_v 0 = 0 ∧
    (∀ V : Vec3, lin_map V = ⟨lin_v V.x, lin_v V.y, lin_v V.z⟩) := by
  refine ⟨rfl, by norm_num [m], by simp [lin_v]; ring, by simp [lin_v], fun V => rfl⟩

/-- C10: `total_field` is linear in its moment argument: it commutes with
scalar multiplication and addition of moment vectors (no non-coincidence
precondition is needed, the singular branch returning zero independently of
the moment), and the zero moment vector yields the zero field. -/
theorem total_field_linear_in_moment (r a : Vec3) (c : ℝ) (mv mw : Vec3) :
    total_field r (smul c mv) a = smul c (total_field r mv a) ∧
    total_field r (vadd mv mw) a = vadd (total_field r mv a) (total_field r mw a) ∧
    total_field r vzero a = vzero := by
  refine ⟨?_, ?_, ?_⟩
  · show total_field r ⟨c * mv.x, c * mv.y, c * mv.z⟩ a = _
    rw [total_field, total_field]
    rw [show (⟨c * mv.x, c * mv.y, c * mv.z⟩ : Vec3).x = c * mv.x from rfl]
    rw [show (⟨c * mv.x, c * mv.y, c * mv.z⟩ : Vec3).y = c * mv.y from rfl]
    rw [show (⟨c * mv.x, c * mv.y, c * mv.z⟩ : Vec3).z = c * mv.z from rfl]
    rw [dipole_field_smul, dipole_field_smul, dipole_field_smul]
    ext <;> simp only [vadd, smul] <;> ring
  · show total_field r ⟨mv.x + mw.x, mv.y + mw.y, mv.z + mw.z⟩ a = _
    rw [total_field, total_field, total_field]
    rw [show (⟨mv.x + mw.x, mv.y + mw.y, mv.z + mw.z⟩ : Vec3).x = mv.x + mw.x from rfl]
    rw [show (⟨mv.x + mw.x, mv.y + mw.y, mv.z + mw.z⟩ : Vec3).y = mv.y + mw.y from rfl]
    rw [show (⟨mv.x + mw.x, mv.y + mw.y, mv.z + mw.z⟩ : Vec3).z = mv.z + mw.z from rfl]
    rw [dipole_field_add, dipole_field_add, dipole_field_add]
    ext <;> simp only [vadd] <;> ring
  · rw [total_field]
    rw [show vzero.x = 0 from rfl, show vzero.y = 0 from rfl, show vzero.z = 0 from rfl]
    rw [dipole_field_zero_moment, dipole_field_zero_moment, dipole_field_zero_moment]
    ext <;> simp [vadd, vzero]

/-- C4: in non-linear mode the moment of a voltage `v` is
`V_max * tanh(v / nonlinearity_factor) * scale` (`V_max = v_range = 10`,
`nonlinearity_factor = nf = 15`, `scale = m = 1e8`), applied independently
per coil; consequently `moment 0 = 0`, `|moment v| < V_max * scale` for
every `v`, and `moment v` tends to `±(V_max * scale)` at `±∞`. -/
theorem nl_moment_props (v : ℝ) :
    nl_v v = v_range * Real.tanh (v / nf) * m ∧
    v_range = 10 ∧ nf = 15 ∧ m = 10 ^ 8 ∧
    nl_v 0 = 0 ∧
    |nl_v v| < v_range * m ∧
    (∀ V : Vec3, nl_map V = ⟨nl_v V.x, nl_v V.y, nl_v V.z⟩) ∧
    Tendsto nl_v atTop (nhds (v_range * m)) ∧
    Tendsto nl_v atBot (nhds (-(v_range * m))) := by
  have hnf : (0 : ℝ) < nf := by norm_num [nf]
  have hdivTop : Tendsto (fun v : ℝ => v / nf) atTop atTop :=
    Tendsto.atTop_div_const hnf tendsto_id
  have hdivBot : Tendsto (fun v : ℝ => v / nf) atBot atBot :=
    Tendsto.atBot_div_const hnf tendsto_id
  refine ⟨rfl, rfl, rfl, by norm_num [m], by simp [nl_v], ?_, fun V => rfl, ?_, ?_⟩
  · have h := abs_tanh_lt_one (v / nf)
    have hb : |nl_v v| = v_range * |Real.tanh (v / nf)| * m := by
      rw [nl_v, abs_mul, abs_mul]
      norm_num [v_range, m]
    rw [hb]
    have hvm : (0 : ℝ) < v_range := by norm_num [v_range]
    have hm : (0 : ℝ) < m := by norm_num [m]
    nlinarith [abs_nonneg (Real.tanh (v / nf)), mul_pos hvm hm]
  · have ht : Tendsto (fun v : ℝ => Real.tanh (v / nf)) atTop (nhds 1) :=
      tendsto_tanh_atTop.comp hdivTop
    have h := (ht.const_mul v_range).mul_const m
    simpa using h
  · have ht : Tendsto (fun v : ℝ => Real.tanh (v / nf)) atBot (nhds (-1)) :=
      tendsto_tanh_atBot.comp hdivBot
    have h := (ht.const_mul v_range).mul_const m
    have he : v_range * (-1) * m = -(v_range * m) := by ring
    rwa [he] at h

lemma V_ind_zero : V_ind 0 = [] := rfl

lemma V_ind_one : V_ind 1 = [⟨-10, 0, 0⟩, ⟨0, -10, 0⟩, ⟨0, 0, -10⟩] := by
  have hr : List.range 1 = [0] := rfl
  have h : linspace (-v_range) v_range 1 = [-10] := by
    norm_num [linspace, hr, v_range]
  rw [V_ind, V1, V2, V3, h]
  rfl

/-- C6 (amended): for every `N ≥ 2` the per-pole sweep `V_ind N` has exactly
`3N` rows; rows `[0, N)` sweep coordinate 0 over the `N` evenly spaced values
from `-V_max` to `V_max` inclusive in ascending order while the other two
coordinates are exactly zero, and likewise rows `[N, 2N)` for coordinate 1
and `[2N, 3N)` for coordinate 2.  (For `N = 1` the single linspace sample is
`-V_max`, so `V_max` is not attained.) -/
theorem individual_sweep_props (N : ℕ) (hN : 2 ≤ N) : individual_sweep_claim N := by
  refine ⟨V_ind_length N, ?_, ?_, ?_⟩
  · exact sweep_block_of_val (fun t => rfl) hN (fun i hi => V_ind_block1_val hN hi)
  · exact sweep_block_of_val (fun t => rfl) hN (fun i hi => V_ind_block2_val hN hi)
  · exact sweep_block_of_val (fun t => rfl) hN (fun i hi => V_ind_block3_val hN hi)

theorem individual_sweep_props_witness : 2 ≤ 2 ∧ individual_sweep_claim 2 :=
  ⟨by decide, individual_sweep_props 2 (by decide)⟩

/-- C6 (counterexample): at the positive sample count `N = 1` the sweep's
first block consists of the single value `-V_max`, so the claimed shape —
which demands that the block attain both `-V_max` at its first row and
`V_max` at its last row — fails. -/
theorem individual_sweep_claim_fails_at_one :
    0 < 1 ∧ (V_ind 1).getD 0 vzero = ⟨-v_range, 0, 0⟩ ∧
      ¬ individual_sweep_claim 1 := by
  refine ⟨Nat.one_pos, ?_, ?_⟩
  · rw [V_ind_one]
    norm_num [v_range, List.getD]
  · intro h
    obtain ⟨-, ⟨-, h0, h1, -⟩, -, -⟩ := h
    simp only [Nat.sub_self, Nat.add_zero] at h1
    rw [h0] at h1
    norm_num [v_range] at h1

/-- C1: every row of each of the four generated datasets stores exactly
`total_field` evaluated at the observation point on the moment vector derived
from that row's stored voltage under the dataset's declared mode: linear
(`V * m`) for the linear individual set, saturating
(`v_range * tanh(V/nf) * m`) for the non-linear individual, full and
validation sets. -/
theorem dataset_invariant (N : ℕ) (Vr Vv : List Vec3) (s : FieldSample) :
    (s ∈ individual_calibration_set N →
      s.field = total_field r0 (lin_map s.voltage) A) ∧
    (s ∈ nl_individual_calibration_set N →
      s.field = total_field r0 (nl_map s.voltage) A) ∧
    (s ∈ full_calibration_set N Vr →
      s.field = total_field r0 (nl_map s.voltage) A) ∧
    (s ∈ val_set Vv → s.field = total_field r0 (nl_map s.voltage) A) := by
  refine ⟨fun h => ?_, fun h => ?_, fun h => ?_, fun h => ?_⟩
  · exact mem_map_row (individual_calibration_set_eq N ▸ h)
  · exact mem_map_row (nl_individual_calibration_set_eq N ▸ h)
  · exact mem_map_row (full_calibration_set_eq N Vr ▸ h)
  · exact mem_map_row (val_set_eq Vv ▸ h)

theorem dataset_invariant_witness :
    (FieldSample.mk (total_field r0 (lin_map ⟨-10, 0, 0⟩) A) ⟨-10, 0, 0⟩ ∈
        individual_calibration_set 1 ∧
      (FieldSample.mk (total_field r0 (lin_map ⟨-10, 0, 0⟩) A) ⟨-10, 0, 0⟩).field =
        total_field r0 (lin_map (FieldSample.mk (total_field r0 (lin_map ⟨-10, 0, 0⟩) A)
          ⟨-10, 0, 0⟩).voltage) A) ∧
    (FieldSample.mk (total_field r0 (nl_map ⟨-10, 0, 0⟩) A) ⟨-10, 0, 0⟩ ∈
        nl_individual_calibration_set 1 ∧
      (FieldSample.mk (total_field r0 (nl_map ⟨-10, 0, 0⟩) A) ⟨-10, 0, 0⟩).field =
        total_field r0 (nl_map (FieldSample.mk (total_field r0 (nl_map ⟨-10, 0, 0⟩) A)
          ⟨-10, 0, 0⟩).voltage) A) ∧
    (FieldSample.mk (total_field r0 (nl_map ⟨1, 2, 3⟩) A) ⟨1, 2, 3⟩ ∈
        full_calibration_set 1 [⟨1, 2, 3⟩] ∧
      (FieldSample.mk (total_field r0 (nl_map ⟨1, 2, 3⟩) A) ⟨1, 2, 3⟩).field =
        total_field r0 (nl_map (FieldSample.mk (total_field r0 (nl_map ⟨1, 2, 3⟩) A)
          ⟨1, 2, 3⟩).voltage) A) ∧
    (FieldSample.mk (total_field r0 (nl_map ⟨4, 5, 6⟩) A) ⟨4, 5, 6⟩ ∈
        val_set [⟨4, 5, 6⟩] ∧
      (FieldSample.mk (total_field r0 (nl_map ⟨4, 5, 6⟩) A) ⟨4, 5, 6⟩).field =
        total_field r0 (nl_map (FieldSample.mk (total_field r0 (nl_map ⟨4, 5, 6⟩) A)
          ⟨4, 5, 6⟩).voltage) A) := by
  have h1 : FieldSample.mk (total_field r0 (lin_map ⟨-10, 0, 0⟩) A) ⟨-10, 0, 0⟩ ∈
      individual_calibration_set 1 := by
    rw [individual_calibration_set_eq, V_ind_one]
    exact List.mem_map_of_mem _ (List.mem_cons_self _ _)
  have h2 : FieldSample.mk (total_field r0 (nl_map ⟨-10, 0, 0⟩) A) ⟨-10, 0, 0⟩ ∈
      nl_individual_calibration_set 1 := by
    rw [nl_individual_calibration_set_eq, V_ind_one]
    exact List.mem_map_of_mem _ (List.mem_cons_self _ _)
  have h3 : FieldSample.mk (total_field r0 (nl_map ⟨1, 2, 3⟩) A) ⟨1, 2, 3⟩ ∈
      full_calibration_set 1 [⟨1, 2, 3⟩] := by
    rw [full_calibration_set_eq]
    exact List.mem_map_of_mem _
      (List.mem_append_right _ (List.mem_cons_self _ _))
  have h4 : FieldSample.mk (total_field r0 (nl_map ⟨4, 5, 6⟩) A) ⟨4, 5, 6⟩ ∈
      val_set [⟨4, 5, 6⟩] := by
    rw [val_set_eq]
    exact List.mem_map_of_mem _ (List.mem_cons_self _ _)
  exact ⟨⟨h1, (dataset_invariant 1 [] [] _).1 h1⟩,
    ⟨h2, (dataset_invariant 1 [] [] _).2.1 h2⟩,
    ⟨h3, (dataset_invariant 1 [⟨1, 2, 3⟩] [] _).2.2.1 h3⟩,
    ⟨h4, (dataset_invariant 1 [] [⟨4, 5, 6⟩] _).2.2.2 h4⟩⟩

/-- C9 (amended): generation is deterministic given the sweep count and the
drawn voltage lists — the full and validation datasets are closed-form
functions of those inputs (the code itself passes no random seed; the draws
come from the ambient global generator). -/
theorem generation_determined_by_draws (N : ℕ) (Vr : List Vec3) :
    full_calibration_set N Vr =
      nl_individual_calibration_set N ++
        Vr.map (fun v => FieldSample.mk (total_field r0 (nl_map v) A) v) ∧
    val_set Vr = Vr.map (fun v => FieldSample.mk (total_field r0 (nl_map v) A) v) := by
  refine ⟨?_, val_set_eq Vr⟩
  rw [full_calibration_set_eq, nl_individual_calibration_set_eq, List.map_append]

/-- C9 (counterexample): two generation runs with identical configuration
(same sample count, same voltage range) but different ambient random draws
produce different validation datasets — the drawn voltages, not any recorded
seed, determine the output. -/
theorem val_set_differs_for_equal_config :
    ([(⟨1, 0, 0⟩ : Vec3)]).length = ([(⟨2, 0, 0⟩ : Vec3)]).length ∧
    val_set [⟨1, 0, 0⟩] ≠ val_set [⟨2, 0, 0⟩] := by
  refine ⟨rfl, fun h => ?_⟩
  rw [val_set_eq, val_set_eq] at h
  simp only [List.map_cons, List.map_nil, List.cons.injEq, and_true,
    FieldSample.mk.injEq, Vec3.mk.injEq] at h
  norm_num at h

lemma V_ind_cfg_length (vr : ℝ) (N : ℕ) : (V_ind_cfg vr N).length = 3 * N := by
  rw [V_ind_cfg, zipWith3_length]
  simp only [V1_cfg, V2_cfg, V3_cfg, List.length_append, linspace_length, zeros_length]
  omega

lemma B_ind_cfg_length (vr : ℝ) (N : ℕ) : (B_ind_cfg vr N).length = 3 * N := by
  rw [B_ind_cfg, List.length_map, V_ind_cfg_length]

/-- C8 (amended): dataset generation performs no configuration-time
validation of sampling parameters.  A configuration with `V_max ≤ 0` is
accepted silently: for every positive sample count the sweep is built and
assembly succeeds, returning a complete `3N`-row dataset.  A zero sample
count is likewise not rejected at configuration time; the run only fails
later, at dataset-assembly time, where the empty field list makes
`np.concatenate` raise a ValueError (`assemble` returns `none`). -/
theorem generation_no_config_validation (vr : ℝ) (N : ℕ)
    (hvr : vr ≤ 0) (hN : 1 ≤ N) :
    (∃ ds : List FieldSample,
      assemble (B_ind_cfg vr N) (V_ind_cfg vr N) = some ds ∧ ds.length = 3 * N) ∧
    assemble (B_ind_cfg vr 0) (V_ind_cfg vr 0) = none := by
  constructor
  · have hlen : (B_ind_cfg vr N).length = 3 * N := B_ind_cfg_length vr N
    have hne : ¬ (B_ind_cfg vr N).isEmpty = true := by
      rw [List.isEmpty_iff]
      intro h
      rw [h] at hlen
      simp only [List.length_nil] at hlen
      omega
    refine ⟨List.zipWith FieldSample.mk (B_ind_cfg vr N) (V_ind_cfg vr N), ?_, ?_⟩
    · rw [assemble, if_neg hne]
    · rw [List.length_zipWith, hlen, V_ind_cfg_length]
      omega
  · rfl

theorem generation_no_config_validation_witness :
    ((-5 : ℝ) ≤ 0 ∧ 1 ≤ 2) ∧
    ((∃ ds : List FieldSample,
        assemble (B_ind_cfg (-5) 2) (V_ind_cfg (-5) 2) = some ds ∧
          ds.length = 3 * 2) ∧
      assemble (B_ind_cfg (-5) 0) (V_ind_cfg (-5) 0) = none) :=
  ⟨⟨by norm_num, by decide⟩,
    generation_no_config_validation (-5) 2 (by norm_num) (by decide)⟩

lemma dipole1_eval :
    dipole_field r0 R1 (lin_v (-10)) A = ⟨-75 / Real.sqrt 2, 0, -25 / Real.sqrt 2⟩ := by
  have hR : vsub r0 R1 = ⟨-1, 0, -1⟩ := by norm_num [vsub, r0, R1]
  have hd : dot (⟨-1, 0, -1⟩ : Vec3) ⟨-1, 0, -1⟩ = 2 := by norm_num [dot]
  have hs2 : Real.sqrt 2 ^ 2 = 2 := Real.sq_sqrt (by norm_num)
  have hspos : 0 < Real.sqrt 2 := Real.sqrt_pos.mpr (by norm_num)
  have h5 : Real.sqrt 2 ^ 5 = 4 * Real.sqrt 2 := by
    have h : Real.sqrt 2 ^ 5 = (Real.sqrt 2 ^ 2) ^ 2 * Real.sqrt 2 := by ring
    rw [h, hs2]; norm_num
  have h3 : Real.sqrt 2 ^ 3 = 2 * Real.sqrt 2 := by
    have h : Real.sqrt 2 ^ 3 = Real.sqrt 2 ^ 2 * Real.sqrt 2 := by ring
    rw [h, hs2]
  have hM : smul (lin_v (-10)) A = ⟨0, 0, -(10 : ℝ) * m⟩ := by
    norm_num [smul, A, lin_v]
  rw [dipole_field_of_ne _ _ _ _ (by rw [hR, hd]; norm_num), hR, hM]
  have hMR : dot (⟨0, 0, -(10 : ℝ) * m⟩ : Vec3) ⟨-1, 0, -1⟩ = 10 * m := by
    norm_num [dot]
  have hmag : mag (⟨-1, 0, -1⟩ : Vec3) = Real.sqrt 2 := by rw [mag, hd]
  rw [hMR, hmag, h5, h3, mu0_eq]
  ext <;> simp only [smul, vsub] <;> norm_num [m] <;> field_simp <;> ring

lemma field_at_minus10 :
    total_field r0 (lin_map ⟨-10, 0, 0⟩) A =
      ⟨-75 / Real.sqrt 2, 0, -25 / Real.sqrt 2⟩ := by
  have hz : lin_v 0 = 0 := by norm_num [lin_v]
  rw [total_field,
    show (lin_map ⟨-10, 0, 0⟩).x = lin_v (-10) from rfl,
    show (lin_map ⟨-10, 0, 0⟩).y = lin_v 0 from rfl,
    show (lin_map ⟨-10, 0, 0⟩).z = lin_v 0 from rfl, hz,
    dipole_field_zero_moment, dipole_field_zero_moment, dipole1_eval]
  ext <;> simp [vadd, vzero]

/-- C7: end-to-end in linear mode (`V_max = 10`, `N = 128`, `mu0 = 1e-7`,
`scale = 1e8`): the first sweep row drives pole 1 at `-10` with poles 2 and 3
at `0`, and the field it stores matches the worked example
`B ≈ (-53.033, 0.0, -17.678)` componentwise within tolerance `1e-2`. -/
theorem worked_example :
    (V_ind 128).getD 0 vzero = ⟨-10, 0, 0⟩ ∧
    |(total_field r0 (lin_map ⟨-10, 0, 0⟩) A).x - (-53.033)| ≤ 1e-2 ∧
    |(total_field r0 (lin_map ⟨-10, 0, 0⟩) A).y - 0| ≤ 1e-2 ∧
    |(total_field r0 (lin_map ⟨-10, 0, 0⟩) A).z - (-17.678)| ≤ 1e-2 := by
  have hrow : (V_ind 128).getD 0 vzero = ⟨-10, 0, 0⟩ := by
    have h := V_ind_block1_val (N := 128) (i := 0) (by norm_num) (by norm_num)
    simp only [Nat.add_zero, Nat.cast_zero, mul_zero, zero_div, add_zero] at h
    rw [h]
    norm_num [v_range]
  have hs2 : Real.sqrt 2 ^ 2 = 2 := Real.sq_sqrt (by norm_num)
  have hspos : 0 < Real.sqrt 2 := Real.sqrt_pos.mpr (by norm_num)
  have hlo : (1.4142 : ℝ) < Real.sqrt 2 := by nlinarith [hs2, hspos]
  have hhi : Real.sqrt 2 < 1.41422 := by nlinarith [hs2, hspos]
  have h75 : (-75 : ℝ) / Real.sqrt 2 = -(75 * Real.sqrt 2) / 2 := by
    rw [div_eq_div_iff hspos.ne' two_ne_zero]
    linear_combination (75 : ℝ) * hs2
  have h25 : (-25 : ℝ) / Real.sqrt 2 = -(25 * Real.sqrt 2) / 2 := by
    rw [div_eq_div_iff hspos.ne' two_ne_zero]
    linear_combination (25 : ℝ) * hs2
  refine ⟨hrow, ?_, ?_, ?_⟩
  · rw [field_at_minus10]
    show |(-75 / Real.sqrt 2) - (-53.033)| ≤ 1e-2
    rw [h75, abs_le]
    constructor <;> nlinarith [hlo, hhi]
  · rw [field_at_minus10]
    show |(0 : ℝ) - 0| ≤ 1e-2
    norm_num
  · rw [field_at_minus10]
    show |(-25 / Real.sqrt 2) - (-17.678)| ≤ 1e-2
    rw [h25, abs_le]
    constructor <;> nlinarith [hlo, hhi]

/-- C8 (counterexample): the invalid configuration `V_max = -5 ≤ 0` with
sample count `2` is not rejected: the sweep is built (descending from `5`
to `-5` on each pole in turn, since `linspace(-V_max, V_max, ·)` reverses
for negative `V_max`) and assembly succeeds, returning a full 6-row
dataset — no fatal error occurs at configuration time or anywhere else. -/
theorem generation_accepts_nonpositive_vmax :
    (-5 : ℝ) ≤ 0 ∧
    V_ind_cfg (-5) 2 =
      [⟨5, 0, 0⟩, ⟨-5, 0, 0⟩, ⟨0, 5, 0⟩, ⟨0, -5, 0⟩, ⟨0, 0, 5⟩, ⟨0, 0, -5⟩] ∧
    assemble (B_ind_cfg (-5) 2) (V_ind_cfg (-5) 2) =
      some (List.zipWith FieldSample.mk (B_ind_cfg (-5) 2) (V_ind_cfg (-5) 2)) ∧
    (List.zipWith FieldSample.mk (B_ind_cfg (-5) 2) (V_ind_cfg (-5) 2)).length = 6 := by
  have hr : List.range 2 = [0, 1] := rfl
  have hls : linspace (-(-5 : ℝ)) (-5) 2 = [5, -5] := by
    norm_num [linspace, hr]
  refine ⟨by norm_num, ?_, ?_, ?_⟩
  · rw [V_ind_cfg, V1_cfg, V2_cfg, V3_cfg, hls]
    rfl
  · have hne : ¬ (B_ind_cfg (-5 : ℝ) 2).isEmpty = true := by
      rw [List.isEmpty_iff]
      intro h
      have hlen := congrArg List.length h
      rw [B_ind_cfg_length] at hlen
      simp only [List.length_nil] at hlen
      omega
    rw [assemble, if_neg hne]
  · rw [List.length_zipWith, B_ind_cfg_length, V_ind_cfg_length]
    omega

end

end TIRFMagnet
